import Mathlib

/-!
# Wire codec and C API of the CQL driver

A shallow embedding of `src/serialization.hpp` (the `cass::` encode/decode
primitives), of the future, statement, collection, result, row and iterator
functions of `src/cassandra.cpp`, and of `test::Utils::replace_all` of
`tests/src/integration/test_utils.cpp`.

* Memory is a byte-addressed map `Mem`; a `char*` is an address (`Nat`).
* The host byte order, which the source tests with
  `#if __BYTE_ORDER == __LITTLE_ENDIAN`, is the parameter `Endian`.
  An integer object of `w` bytes is laid out by `objectBytes` and read back by
  `objectValue`; `htons`/`htonl`/`htonll` swap on a little-endian host only.
* `size_t` is 64 bits wide (8 bytes); `uint16_t`, `int32_t`, `int64_t` have
  their fixed widths.  Unsigned values are `Nat`, signed values are `Int`.
* `(uint16_t&) size` and `(int32_t&) size` designate the first 2 (4) bytes of
  the 8-byte `size_t` object: `aliasStore`.
-/

namespace cass

/-! ## Bytes, memory and object representation -/

/-- Host byte order (`__BYTE_ORDER`). -/
inductive Endian where
  | little
  | big
deriving DecidableEq, Repr

abbrev Byte := Fin 256

/-- Byte-addressed memory. -/
abbrev Mem := Nat → Byte

/-- The `w` low-order bytes of `v`, least significant first. -/
def leBytes : Nat → Nat → List Byte
  | 0, _ => []
  | w + 1, v => ⟨v % 256, Nat.mod_lt _ (by decide)⟩ :: leBytes w (v / 256)

/-- The unsigned value of a byte sequence, least significant byte first. -/
def leValue : List Byte → Nat
  | [] => 0
  | b :: bs => b.val + 256 * leValue bs

/-- Object representation of the `w`-byte unsigned integer `v` on host `h`,
lowest address first. -/
def objectBytes (h : Endian) (w v : Nat) : List Byte :=
  match h with
  | .little => leBytes w v
  | .big => (leBytes w v).reverse

/-- The unsigned integer whose object representation on host `h` is `bs`. -/
def objectValue (h : Endian) (bs : List Byte) : Nat :=
  match h with
  | .little => leValue bs
  | .big => leValue bs.reverse

/-- Byte swap of a `w`-byte unsigned integer (`__builtin_bswap64` for `w = 8`). -/
def bswap (w v : Nat) : Nat := leValue (leBytes w v).reverse

/-- Conversion to `uint32_t`. -/
def toU32 (v : Int) : Nat := (v % 2 ^ 32).toNat

/-- Conversion of an unsigned value to `int32_t` (two's complement wrap). -/
def toI32 (n : Nat) : Int :=
  if n % 2 ^ 32 < 2 ^ 31 then (n % 2 ^ 32 : Nat) else (n % 2 ^ 32 : Nat) - 2 ^ 32

/-- Conversion to `uint64_t`. -/
def toU64 (v : Int) : Nat := (v % 2 ^ 64).toNat

/-- Conversion of an unsigned value to `int64_t` (two's complement wrap). -/
def toI64 (n : Nat) : Int :=
  if n % 2 ^ 64 < 2 ^ 63 then (n % 2 ^ 64 : Nat) else (n % 2 ^ 64 : Nat) - 2 ^ 64

/-- The library function `htons` on a `uint16_t` argument. -/
def htons (h : Endian) (v : Nat) : Nat :=
  match h with
  | .little => bswap 2 v
  | .big => v % 2 ^ 16

/-- The library function `ntohs`. -/
def ntohs (h : Endian) (v : Nat) : Nat := htons h v

/-- The library function `htonl` on a `uint32_t` argument. -/
def htonl (h : Endian) (v : Nat) : Nat :=
  match h with
  | .little => bswap 4 v
  | .big => v % 2 ^ 32

/-- The library function `ntohl`. -/
def ntohl (h : Endian) (v : Nat) : Nat := htonl h v

/-- The macro `ntohll`: `(uint64_t) __builtin_bswap64(x)` under
`__BYTE_ORDER == __LITTLE_ENDIAN`, `(x)` otherwise. -/
def ntohll (h : Endian) (x : Int) : Int :=
  match h with
  | .little => (bswap 8 (toU64 x) : Nat)
  | .big => x

/-- The macro `htonll(x)`, defined as `ntohll(x)` in both branches. -/
def htonll (h : Endian) (x : Int) : Int := ntohll h x

/-- The call `memcpy(dst, src, src.length)`. -/
def memcpy (m : Mem) (dst : Nat) (src : List Byte) : Mem :=
  fun a => if dst ≤ a then (src[a - dst]?).getD (m a) else m a

/-- The `n` bytes of memory starting at `p` (what `std::string(p, n)` copies). -/
def readBytes (m : Mem) (p n : Nat) : List Byte :=
  (List.range n).map fun i => m (p + i)

/-- A `size_t` object holding `old` after a store of the `w`-byte value `v`
through a reference to its first `w` bytes, as in `(uint16_t&) size`. -/
def aliasStore (h : Endian) (w old v : Nat) : Nat :=
  objectValue h (objectBytes h w v ++ (objectBytes h 8 old).drop w)

/-! ## serialization.hpp -/

/-- Function `decode_short`: the value stored in `output` and the returned position. -/
def decode_short (h : Endian) (m : Mem) (input : Nat) : Nat × Nat :=
  (ntohs h (objectValue h (readBytes m input 2)), input + 2)

/-- Function `encode_short`; `value` is converted to `uint16_t` at the call. -/
def encode_short (h : Endian) (m : Mem) (output : Nat) (value : Nat) : Mem × Nat :=
  let net_value := htons h (value % 2 ^ 16)
  (memcpy m output (objectBytes h 2 net_value), output + 2)

/-- Function `decode_int`: the value stored in `output` and the returned position. -/
def decode_int (h : Endian) (m : Mem) (input : Nat) : Int × Nat :=
  (toI32 (ntohl h (toU32 (toI32 (objectValue h (readBytes m input 4))))), input + 4)

/-- Function `encode_int`. -/
def encode_int (h : Endian) (m : Mem) (output : Nat) (value : Int) : Mem × Nat :=
  let net_value : Int := toI32 (htonl h (toU32 value))
  (memcpy m output (objectBytes h 4 (toU32 net_value)), output + 4)

/-- Function `encode_int64`. -/
def encode_int64 (h : Endian) (m : Mem) (output : Nat) (value : Int) : Mem × Nat :=
  let net_value : Int := toI64 (toU64 (htonll h value))
  (memcpy m output (objectBytes h 8 (toU64 net_value)), output + 8)

/-- Function `decode_string`: `size` is the prior content of the caller's
`size_t` variable; the result is `(*output, size, returned position)`. -/
def decode_string (h : Endian) (m : Mem) (input : Nat) (size : Nat) : Nat × Nat × Nat :=
  let r := decode_short h m input
  let size1 := aliasStore h 2 size r.1
  let output := r.2
  (output, size1, output + size1)

/-- Function `encode_string`: `input` holds the `size` bytes at the source
pointer, `size = input.length`. -/
def encode_string (h : Endian) (m : Mem) (output : Nat) (input : List Byte) : Mem × Nat :=
  let size := input.length
  let r := encode_short h m output size
  let buffer := r.2
  (memcpy r.1 buffer input, buffer + size)

/-- Function `encode_decimal`: `varint` holds the `varint_length` bytes at the
source pointer, `varint_length = varint.length`; no length is written. -/
def encode_decimal (h : Endian) (m : Mem) (output : Nat) (scale : Int) (varint : List Byte) :
    Mem × Nat :=
  let varint_length := varint.length
  let r := encode_int h m output scale
  let buffer := r.2
  (memcpy r.1 buffer varint, buffer + varint_length)

/-- Function `decode_long_string`, result `(*output, size, returned position)`. -/
def decode_long_string (h : Endian) (m : Mem) (input : Nat) (size : Nat) : Nat × Nat × Nat :=
  let r := decode_int h m input
  let size1 := aliasStore h 4 size (toU32 r.1)
  let output := r.2
  (output, size1, output + size1)

/-- Function `encode_long_string`; `size` is converted to `int32_t` at the call. -/
def encode_long_string (h : Endian) (m : Mem) (output : Nat) (input : List Byte) : Mem × Nat :=
  let size := input.length
  let r := encode_int h m output (toI32 size)
  let buffer := r.2
  (memcpy r.1 buffer input, buffer + size)

/-- Contents of a `std::map<std::string, std::string>` in iteration order
(ascending keys, `std::string` comparison being lexicographic on bytes). -/
abbrev StringMap := List (List Byte × List Byte)

/-- Member `std::map::insert`: an existing key keeps its value. -/
def map_insert (k v : List Byte) : StringMap → StringMap
  | [] => [(k, v)]
  | (k1, v1) :: rest =>
    if k < k1 then (k, v) :: (k1, v1) :: rest
    else if k = k1 then (k1, v1) :: rest
    else (k1, v1) :: map_insert k v rest

/-- Function `encode_string_map`. -/
def encode_string_map (h : Endian) (m : Mem) (output : Nat) (map : StringMap) : Mem × Nat :=
  let r := encode_short h m output map.length
  map.foldl
    (fun (st : Mem × Nat) (it : List Byte × List Byte) =>
      let st1 := encode_string h st.1 st.2 it.1
      encode_string h st1.1 st1.2 it.2)
    r

/-- The body of the `for` loop of `decode_string_map`, run `n` more times. -/
def decode_string_map_loop (h : Endian) (m : Mem) : Nat → Nat → StringMap → StringMap × Nat
  | 0, buffer, map => (map, buffer)
  | n + 1, buffer, map =>
    let k := decode_string h m buffer 0
    let v := decode_string h m k.2.2 0
    decode_string_map_loop h m n v.2.2
      (map_insert (readBytes m k.1 k.2.1) (readBytes m v.1 v.2.1) map)

/-- Function `decode_string_map`: the map is cleared, then `len` pairs are inserted. -/
def decode_string_map (h : Endian) (m : Mem) (input : Nat) (_map : StringMap) : StringMap × Nat :=
  let r := decode_short h m input
  decode_string_map_loop h m r.1 r.2 []

/-- Function `decode_option`: `CASS_VALUE_TYPE_CUSTOM` is the constant of
cassandra.h (not among the sources), taken as a parameter; `class_name` and
`class_name_size` are the prior contents of `*class_name` and of the caller's
size variable; the result is
`(type, *class_name, class_name_size, returned position)`. -/
def decode_option (h : Endian) (m : Mem) (CASS_VALUE_TYPE_CUSTOM : Nat) (input : Nat)
    (class_name : Nat) (class_name_size : Nat) : Nat × Nat × Nat × Nat :=
  let r := decode_short h m input
  let type := r.1
  let buffer := r.2
  if type = CASS_VALUE_TYPE_CUSTOM then
    let s := decode_string h m buffer class_name_size
    (type, s.1, s.2.1, s.2.2)
  else (type, class_name, class_name_size, buffer)

/-- Network order (big-endian) bytes of the `w`-byte unsigned integer `v`. -/
def beBytes (w v : Nat) : List Byte := (leBytes w v).reverse

/-- The unsigned value of a byte sequence in network order. -/
def beValue (bs : List Byte) : Nat := leValue bs.reverse

/-! ## Wire layout and auxiliary definitions -/

/-- Wire layout of one short string: 2-byte network-order length, then the bytes. -/
def wireString (s : List Byte) : List Byte := beBytes 2 s.length ++ s

/-- Wire layout of a sequence of key/value pairs, in the given order. -/
def wirePairs : List (List Byte × List Byte) → List Byte
  | [] => []
  | p :: rest => wireString p.1 ++ wireString p.2 ++ wirePairs rest

/-- Wire layout of a string map payload: 2-byte count, then the pairs. -/
def wireMap (l : List (List Byte × List Byte)) : List Byte := beBytes 2 l.length ++ wirePairs l

/-- The pairs of `l` inserted one after the other into the map `acc`. -/
def insertAll (acc : StringMap) (l : List (List Byte × List Byte)) : StringMap :=
  l.foldl (fun a p => map_insert p.1 p.2 a) acc

/-- The value paired with the first occurrence of the key `k` in `l`. -/
def firstValue (k : List Byte) : List (List Byte × List Byte) → Option (List Byte)
  | [] => none
  | p :: rest => if p.1 = k then some p.2 else firstValue k rest

/-- Strict key order of map entries (`std::map` iteration order). -/
def keyLt (a b : List Byte × List Byte) : Prop := a.1 < b.1

/-- Byte `k` (0 = least significant) of the two's-complement representation of `v`:
`(v >> 8k) & 0xFF`. -/
def byteAt (v : Int) (k : Nat) : Byte :=
  ⟨((v / 2 ^ (8 * k)) % 256).toNat, by omega⟩

/-- Memory all of whose bytes are zero. -/
def zeroMem : Mem := fun _ => 0

end cass

/-! ## cassandra.cpp: rows and iterators -/

/-- Modelled from the spec: the status enumeration `CassCode` (cassandra.h is
not among the sources); these are the two values the accessors below return. -/
inductive CassCode where
  | CASS_OK
  | CASS_ERROR_LIB_BAD_PARAMS
deriving DecidableEq, Repr

/-- Modelled from the spec: `cass::Row` (row.hpp is not among the sources), the
sequence of the column values of one row, with `size()` and `operator[]`. -/
abbrev Row (α : Type) := List α

/-- Function `cass_row_getcol`: `value` is the prior content of `*value`; the
result is the status and the content of `*value` afterwards, a reference to an
element of the row being given by the element it designates. -/
def cass_row_getcol {α : Type} (row : Row α) (index : Nat) (value : Option α) :
    CassCode × Option α :=
  if index ≥ row.length then (CassCode.CASS_ERROR_LIB_BAD_PARAMS, value)
  else (CassCode.CASS_OK, row[index]?)

/-- Modelled from the spec: the tag `cass::Iterator::type` (iterator.hpp is not
among the sources); cassandra.cpp names `CASS_ITERATOR_TYPE_RESULT` only. -/
inductive IteratorType where
  | CASS_ITERATOR_TYPE_RESULT
  | CASS_ITERATOR_TYPE_OTHER
deriving DecidableEq, Repr

/-- Modelled from the spec: `cass::ResultIterator` (result_iterator.hpp is not
among the sources), a forward iterator over the rows of a result: `row` is the
member handed out by `cass_iterator_get_row`, `pending` the rows not yet
visited. -/
structure Iterator (ρ : Type) where
  type : IteratorType
  row : ρ
  pending : List ρ

/-- Modelled from the spec: `ResultIterator::next()` advances and returns whether
a row is available. -/
def Iterator.next {ρ : Type} (it : Iterator ρ) : Bool × Iterator ρ :=
  match it.pending with
  | [] => (false, it)
  | r :: rest => (true, ⟨it.type, r, rest⟩)

/-- Function `cass_iterator_rows_new`: a result iterator positioned before the
first row; `blank` is the content of its `row` member before any advance. -/
def cass_iterator_rows_new {ρ : Type} (rows : List ρ) (blank : ρ) : Iterator ρ :=
  ⟨IteratorType.CASS_ITERATOR_TYPE_RESULT, blank, rows⟩

/-- Function `cass_iterator_get_row`: `row` is the prior content of `*row`; the
result is the status and the content of `*row` afterwards. -/
def cass_iterator_get_row {ρ : Type} (iterator : Iterator ρ) (row : Option ρ) :
    CassCode × Option ρ :=
  if iterator.type ≠ IteratorType.CASS_ITERATOR_TYPE_RESULT then
    (CassCode.CASS_ERROR_LIB_BAD_PARAMS, row)
  else (CassCode.CASS_OK, some iterator.row)

/-- Function `cass_iterator_next`. -/
def cass_iterator_next {ρ : Type} (iterator : Iterator ρ) : Bool × Iterator ρ :=
  iterator.next

/-! ## cassandra.cpp: futures -/

/-- Modelled from the spec: the error attached to a future on failure (code and
message); the accessors below test only whether the pointer is set. -/
structure Error where
  code : Nat
  message : List cass.Byte

/-- Modelled from the spec: `cass::Result` (body_result.hpp is not among the
sources) with the members cassandra.cpp reads. `column_metadata i` is the `type`
member of `column_metadata[i]`; it is a total map because the source indexes
the array without a bound, so an index past `column_count` reads whatever lies
there. `prepared` holds the `prepared_size` bytes at the `prepared` pointer. -/
structure Result where
  kind : Nat
  row_count : Nat
  column_count : Nat
  column_metadata : Nat → Nat
  prepared : List cass.Byte

/-- Modelled from the spec: the constant `CASS_RESULT_KIND_ROWS` (cassandra.h is
not among the sources), the rows kind of a RESULT frame. -/
def CASS_RESULT_KIND_ROWS : Nat := 1

/-- Modelled from the spec: `cass::Prepared` (not among the sources), built from
the server-issued id. -/
structure Prepared where
  id : List cass.Byte
deriving DecidableEq, Repr

/-- Modelled from the spec: `cass::SessionFutureImpl` (session.hpp is not among
the sources): the `error` pointer, null when unset, and the `result` session
pointer. -/
structure SessionFuture (σ : Type) where
  error : Option Error
  result : Option σ

/-- Modelled from the spec: `cass::MessageFutureImpl` (session.hpp is not among
the sources): the `error` pointer, null when unset, and `result->body`, the
smart pointer that owns the decoded body, null once released. -/
structure MessageFuture where
  error : Option Error
  body : Option Result

/-- Function `cass_future_get_session`: the returned pointer and the future
afterwards. -/
def cass_future_get_session {σ : Type} (future : SessionFuture σ) :
    Option σ × SessionFuture σ :=
  if future.error.isSome then (none, future)
  else (future.result, future)

/-- Function `cass_future_get_result`: the returned pointer and the future
afterwards; `body.release()` hands the body out and leaves the smart pointer
null. -/
def cass_future_get_result (future : MessageFuture) : Option Result × MessageFuture :=
  if future.error.isSome then (none, future)
  else (future.body, ⟨future.error, none⟩)

/-- Function `cass_future_get_prepared`: the returned pointer to the newly
constructed `Prepared`, null when none is constructed, and the future
afterwards; `body.get()` leaves the smart pointer as it is. Reading through a
null body is undefined in the source; here it constructs nothing. -/
def cass_future_get_prepared (future : MessageFuture) : Option Prepared × MessageFuture :=
  if future.error.isSome then (none, future)
  else
    match future.body with
    | none => (none, future)
    | some result => (some ⟨result.prepared⟩, future)

/-! ## cassandra.cpp: statements and collections -/

/-- Modelled from the spec: a Query/Bound `cass::Statement` (statement.hpp is
not among the sources): the positional array of optional bound values, one
slot per parameter. -/
structure Statement where
  values : List (Option (List cass.Byte))
deriving DecidableEq, Repr

/-- Function `cass_statement_bind_decimal`: the status and the statement
afterwards; `value` holds the `length` bytes at the source pointer. -/
def cass_statement_bind_decimal (statement : Statement) (_index : Nat) (_scale : Nat)
    (_value : List cass.Byte) : CassCode × Statement :=
  (CassCode.CASS_OK, statement)

/-- Function `cass_collection_append_int64`: `x` is the 64-bit value the caller
supplies, converted to the parameter `cass_int32_t i64` at the call;
`append_int64` is the member of `cass::Collection` (collection.hpp is not among
the sources) that receives it. -/
def cass_collection_append_int64 {κ : Type} (append_int64 : κ → Int → κ) (collection : κ)
    (x : Int) : CassCode × κ :=
  let i64 : Int := cass.toI32 (cass.toU64 x)
  (CassCode.CASS_OK, append_int64 collection i64)

/-! ## cassandra.cpp: results -/

/-- Function `cass_result_rowcount`. -/
def cass_result_rowcount (result : Result) : Nat :=
  if result.kind = CASS_RESULT_KIND_ROWS then result.row_count else 0

/-- Function `cass_result_colcount`. -/
def cass_result_colcount (result : Result) : Nat :=
  if result.kind = CASS_RESULT_KIND_ROWS then result.column_count else 0

/-- Function `cass_result_coltype`: `coltype` is the prior content of `*coltype`;
the result is the status and the content of `*coltype` afterwards. -/
def cass_result_coltype (result : Result) (index : Nat) (coltype : Option Nat) :
    CassCode × Option Nat :=
  if result.kind = CASS_RESULT_KIND_ROWS then
    (CassCode.CASS_OK, some (result.column_metadata index))
  else (CassCode.CASS_ERROR_LIB_BAD_PARAMS, coltype)

/-! ## tests/src/integration/test_utils.cpp -/

namespace test.Utils

/-- Member `std::string::find(str, pos)` tried at the `n` positions from `xpos`
on: the lowest of them at which `str` occurs in `s`. -/
def find_from (s str : List cass.Byte) : Nat → Nat → Option Nat
  | 0, _ => none
  | n + 1, xpos =>
    if (s.drop xpos).take str.length = str then some xpos
    else find_from s str n (xpos + 1)

/-- Member `std::string::find(str, pos)`: the lowest `xpos` with `pos ≤ xpos` and
`xpos + str.size() ≤ size()` at which `str` occurs in `s`; `none` is `npos`. -/
def find (s str : List cass.Byte) (pos : Nat) : Option Nat :=
  if pos + str.length ≤ s.length then find_from s str (s.length - str.length - pos + 1) pos
  else none

/-- Member `std::string::replace(pos, len, str)`. -/
def replace (s : List cass.Byte) (pos len : Nat) (str : List cass.Byte) : List cass.Byte :=
  s.take pos ++ str ++ s.drop (pos + len)

/-- The `while` loop of `replace_all` from the state `(position, result)`;
`from_` and `to_` are the arguments `from` and `to`; `none` when the loop is
still running after `fuel` evaluations of its condition. -/
def replace_all_loop (from_ to_ : List cass.Byte) : Nat → Nat → List cass.Byte →
    Option (List cass.Byte)
  | 0, _, _ => none
  | fuel + 1, position, result =>
    match find result from_ position with
    | none => some result
    | some found =>
      replace_all_loop from_ to_ fuel (found + to_.length)
        (replace result found from_.length to_)

/-- Function `test::Utils::replace_all`; `from_` and `to_` are the arguments
`from` and `to`. -/
def replace_all (fuel : Nat) (input from_ to_ : List cass.Byte) : Option (List cass.Byte) :=
  replace_all_loop from_ to_ fuel 0 input

end test.Utils

namespace cass

/-! ## Byte-level lemmas -/

theorem leBytes_length (w v : Nat) : (leBytes w v).length = w := by
  induction w generalizing v with
  | zero => rfl
  | succ w ih => simp [leBytes, ih]

theorem leValue_lt (bs : List Byte) : leValue bs < 256 ^ bs.length := by
  induction bs with
  | nil => simp [leValue]
  | cons b bs ih =>
    have hb := b.isLt
    simp only [leValue, List.length_cons, pow_succ]
    omega

theorem leValue_leBytes (w v : Nat) : leValue (leBytes w v) = v % 256 ^ w := by
  induction w generalizing v with
  | zero => simp [leBytes, leValue, Nat.mod_one]
  | succ w ih =>
    simp only [leBytes, leValue, ih]
    rw [pow_succ', Nat.mod_mul]

theorem leBytes_leValue (bs : List Byte) : leBytes bs.length (leValue bs) = bs := by
  induction bs with
  | nil => rfl
  | cons b bs ih =>
    have hb := b.isLt
    simp only [List.length_cons, leBytes, leValue]
    have h1 : (b.val + 256 * leValue bs) % 256 = b.val := by omega
    have h2 : (b.val + 256 * leValue bs) / 256 = leValue bs := by omega
    simp only [h1, h2, ih]

theorem leBytes_mod (w v : Nat) : leBytes w (v % 256 ^ w) = leBytes w v := by
  have h := leBytes_leValue (leBytes w v)
  rw [leBytes_length, leValue_leBytes] at h
  exact h

theorem toU32_toI32 (n : Nat) : toU32 (toI32 n) = n % 2 ^ 32 := by
  unfold toU32 toI32
  split <;> omega

theorem toI32_toU32 (v : Int) (h1 : -2 ^ 31 ≤ v) (h2 : v < 2 ^ 31) : toI32 (toU32 v) = v := by
  unfold toU32 toI32
  split <;> omega

theorem toU32_lt (v : Int) : toU32 v < 2 ^ 32 := by
  unfold toU32; omega

theorem toU64_toI64 (n : Nat) : toU64 (toI64 n) = n % 2 ^ 64 := by
  unfold toU64 toI64
  split <;> omega

theorem toU64_lt (v : Int) : toU64 v < 2 ^ 64 := by
  unfold toU64; omega

theorem toU64_natCast (n : Nat) : toU64 (n : Int) = n % 2 ^ 64 := by
  unfold toU64; omega

theorem leBytes_bswap (w v : Nat) : leBytes w (bswap w v) = beBytes w v := by
  unfold bswap beBytes
  have h := leBytes_leValue (leBytes w v).reverse
  rwa [List.length_reverse, leBytes_length] at h

theorem bswap_leValue (w : Nat) (bs : List Byte) (hw : bs.length = w) :
    bswap w (leValue bs) = beValue bs := by
  subst hw
  unfold bswap beValue
  rw [leBytes_leValue]

theorem beBytes_length (w v : Nat) : (beBytes w v).length = w := by
  simp [beBytes, leBytes_length]

theorem beValue_beBytes (w v : Nat) : beValue (beBytes w v) = v % 256 ^ w := by
  simp [beValue, beBytes, leValue_leBytes]

theorem beValue_lt (bs : List Byte) : beValue bs < 256 ^ bs.length := by
  have h := leValue_lt bs.reverse
  simpa [beValue] using h

theorem beBytes_mod (w v : Nat) : beBytes w (v % 256 ^ w) = beBytes w v := by
  simp [beBytes, leBytes_mod]

/-- On either host, the object bytes of the host-to-network conversion are the
network-order bytes. -/
theorem objectBytes_hton (h : Endian) (w v : Nat) :
    objectBytes h w (match h with | .little => bswap w v | .big => v % 256 ^ w) = beBytes w v := by
  cases h with
  | little => exact leBytes_bswap w v
  | big => simp [objectBytes, beBytes, leBytes_mod]

/-- On either host, network-to-host conversion of the object read from memory
is the network-order value of the bytes. -/
theorem ntoh_objectValue (h : Endian) (w : Nat) (bs : List Byte) (hw : bs.length = w) :
    (match h with | .little => bswap w (objectValue h bs) | .big => objectValue h bs % 256 ^ w)
      = beValue bs := by
  cases h with
  | little => exact bswap_leValue w bs hw
  | big =>
    have h1 := beValue_lt bs
    rw [hw] at h1
    simp only [objectValue]
    exact Nat.mod_eq_of_lt h1

theorem objectValue_lt (h : Endian) (bs : List Byte) : objectValue h bs < 256 ^ bs.length := by
  cases h with
  | little => exact leValue_lt bs
  | big => exact beValue_lt bs

theorem objectBytes_mod (h : Endian) (w v : Nat) :
    objectBytes h w (v % 256 ^ w) = objectBytes h w v := by
  cases h <;> simp [objectBytes, leBytes_mod]

theorem readBytes_length (m : Mem) (p n : Nat) : (readBytes m p n).length = n := by
  simp [readBytes]

/-! ## Memory lemmas -/

theorem memcpy_inside (m : Mem) (p : Nat) (bs : List Byte) (i : Nat) (hi : i < bs.length) :
    memcpy m p bs (p + i) = bs[i] := by
  simp [memcpy, hi]

theorem memcpy_outside (m : Mem) (p : Nat) (bs : List Byte) (a : Nat)
    (ha : a < p ∨ p + bs.length ≤ a) : memcpy m p bs a = m a := by
  unfold memcpy
  split
  · rename_i hpa
    have h1 : bs.length ≤ a - p := by omega
    simp [List.getElem?_eq_none h1]
  · rfl

theorem memcpy_nil (m : Mem) (p : Nat) : memcpy m p [] = m := by
  funext a
  simp [memcpy]

theorem memcpy_append (m : Mem) (p : Nat) (a b : List Byte) :
    memcpy (memcpy m p a) (p + a.length) b = memcpy m p (a ++ b) := by
  funext x
  by_cases h1 : x < p
  · rw [memcpy_outside _ _ _ _ (Or.inl (by omega)), memcpy_outside _ _ _ _ (Or.inl h1),
      memcpy_outside _ _ _ _ (Or.inl h1)]
  · by_cases h2 : x < p + a.length
    · rw [memcpy_outside _ _ _ _ (Or.inl h2)]
      obtain ⟨i, rfl⟩ : ∃ i, x = p + i := ⟨x - p, by omega⟩
      have hi : i < a.length := by omega
      rw [memcpy_inside _ _ _ _ hi, memcpy_inside _ _ _ _ (by simp; omega)]
      simp [List.getElem_append_left, hi]
    · by_cases h3 : x < p + a.length + b.length
      · obtain ⟨i, rfl⟩ : ∃ i, x = p + a.length + i := ⟨x - (p + a.length), by omega⟩
        have hi : i < b.length := by omega
        rw [memcpy_inside _ _ _ _ hi]
        have h4 : p + a.length + i = p + (a.length + i) := by omega
        rw [h4, memcpy_inside _ _ _ _ (by simp; omega)]
        simp [List.getElem_append_right]
      · rw [memcpy_outside _ _ _ _ (Or.inr (by omega)), memcpy_outside _ _ _ _ (Or.inr (by omega)),
          memcpy_outside _ _ _ _ (Or.inr (by simp; omega))]

theorem readBytes_memcpy (m : Mem) (p : Nat) (bs : List Byte) :
    readBytes (memcpy m p bs) p bs.length = bs := by
  apply List.ext_getElem
  · simp [readBytes]
  · intro i h1 h2
    simp only [readBytes, List.getElem_map, List.getElem_range]
    exact memcpy_inside m p bs i h2

theorem readBytes_add (m : Mem) (p a b : Nat) :
    readBytes m p (a + b) = readBytes m p a ++ readBytes m (p + a) b := by
  simp only [readBytes, List.range_add, List.map_append, List.map_map]
  congr 1
  apply List.map_congr_left
  intro i _
  simp [Nat.add_assoc]

/-- Memory holds the bytes `bs` at address `p`. -/
theorem readBytes_append_iff (m : Mem) (p : Nat) (a b : List Byte) :
    readBytes m p (a ++ b).length = a ++ b ↔
      readBytes m p a.length = a ∧ readBytes m (p + a.length) b.length = b := by
  rw [List.length_append, readBytes_add]
  constructor
  · intro h
    exact List.append_inj h (by simp [readBytes])
  · rintro ⟨h1, h2⟩
    rw [h1, h2]

theorem encode_short_eq (h : Endian) (m : Mem) (output value : Nat) :
    encode_short h m output value = (memcpy m output (beBytes 2 value), output + 2) := by
  have hm : beBytes 2 (value % 2 ^ 16) = beBytes 2 value := beBytes_mod 2 value
  cases h with
  | little =>
    simp only [encode_short, htons, objectBytes]
    rw [leBytes_bswap, hm]
  | big =>
    simp only [encode_short, htons, objectBytes, Nat.mod_mod]
    rw [← hm]; rfl

theorem decode_short_eq (h : Endian) (m : Mem) (input : Nat) :
    decode_short h m input = (beValue (readBytes m input 2), input + 2) := by
  have hl : (readBytes m input 2).length = 2 := readBytes_length m input 2
  cases h with
  | little =>
    simp only [decode_short, ntohs, htons, objectValue]
    rw [bswap_leValue 2 _ hl]
  | big =>
    have h1 := beValue_lt (readBytes m input 2)
    rw [hl] at h1
    simp only [decode_short, ntohs, htons, objectValue]
    rw [show leValue (readBytes m input 2).reverse = beValue (readBytes m input 2) from rfl,
      Nat.mod_eq_of_lt (by omega)]

theorem encode_int_eq (h : Endian) (m : Mem) (output : Nat) (value : Int) :
    encode_int h m output value = (memcpy m output (beBytes 4 (toU32 value)), output + 4) := by
  have hm : ∀ v, objectBytes h 4 (v % 2 ^ 32) = objectBytes h 4 v := objectBytes_mod h 4
  simp only [encode_int, toU32_toI32, hm]
  cases h with
  | little =>
    simp only [htonl, objectBytes]
    rw [leBytes_bswap]
  | big =>
    simp only [htonl, objectBytes]
    rw [show leBytes 4 (toU32 value % 2 ^ 32) = leBytes 4 (toU32 value) from leBytes_mod 4 _]
    rfl

theorem decode_int_eq (h : Endian) (m : Mem) (input : Nat) :
    decode_int h m input = (toI32 (beValue (readBytes m input 4)), input + 4) := by
  have hl : (readBytes m input 4).length = 4 := readBytes_length m input 4
  have h0 := objectValue_lt h (readBytes m input 4)
  rw [hl] at h0
  simp only [decode_int, toU32_toI32]
  rw [Nat.mod_eq_of_lt (by omega)]
  cases h with
  | little =>
    simp only [ntohl, htonl, objectValue]
    rw [bswap_leValue 4 _ hl]
  | big =>
    simp only [ntohl, htonl, objectValue] at h0 ⊢
    rw [Nat.mod_eq_of_lt (by omega)]
    rfl

theorem encode_int64_eq (h : Endian) (m : Mem) (output : Nat) (value : Int) :
    encode_int64 h m output value = (memcpy m output (beBytes 8 (toU64 value)), output + 8) := by
  have hm : ∀ v, objectBytes h 8 (v % 2 ^ 64) = objectBytes h 8 v := objectBytes_mod h 8
  simp only [encode_int64, toU64_toI64, hm]
  cases h with
  | little =>
    simp only [htonll, ntohll, objectBytes, toU64_natCast]
    rw [show leBytes 8 (bswap 8 (toU64 value) % 2 ^ 64) = leBytes 8 (bswap 8 (toU64 value))
      from leBytes_mod 8 _, leBytes_bswap]
  | big =>
    simp only [htonll, ntohll, objectBytes]
    rfl

theorem encode_string_eq (h : Endian) (m : Mem) (output : Nat) (input : List Byte) :
    encode_string h m output input
      = (memcpy m output (beBytes 2 input.length ++ input), output + 2 + input.length) := by
  simp only [encode_string, encode_short_eq]
  have h2 : output + 2 = output + (beBytes 2 input.length).length := by rw [beBytes_length]
  rw [h2, memcpy_append]

theorem encode_long_string_eq (h : Endian) (m : Mem) (output : Nat) (input : List Byte) :
    encode_long_string h m output input
      = (memcpy m output (beBytes 4 input.length ++ input), output + 4 + input.length) := by
  simp only [encode_long_string, encode_int_eq, toU32_toI32]
  rw [show beBytes 4 (input.length % 2 ^ 32) = beBytes 4 input.length from beBytes_mod 4 _]
  have h2 : output + 4 = output + (beBytes 4 input.length).length := by rw [beBytes_length]
  rw [h2, memcpy_append]

/-! ## The aliased store into a `size_t` -/

theorem leValue_append (a b : List Byte) :
    leValue (a ++ b) = leValue a + 256 ^ a.length * leValue b := by
  induction a with
  | nil => simp [leValue]
  | cons x a ih =>
    rw [List.cons_append]
    simp only [leValue, List.length_cons, pow_succ]
    rw [ih]
    ring

theorem leBytes_drop (a b v : Nat) : (leBytes (a + b) v).drop a = leBytes b (v / 256 ^ a) := by
  induction a generalizing v with
  | zero => simp
  | succ a ih =>
    rw [show a + 1 + b = (a + b) + 1 by omega]
    simp only [leBytes, List.drop_succ_cons, ih]
    rw [Nat.div_div_eq_div_mul, pow_succ']

/-- On a little-endian host the store replaces the low-order `w` bytes. -/
theorem aliasStore_little (w old v : Nat) (hw : w ≤ 8) :
    aliasStore .little w old v = v % 256 ^ w + 256 ^ w * (old / 256 ^ w % 256 ^ (8 - w)) := by
  have hd : (leBytes 8 old).drop w = leBytes (8 - w) (old / 256 ^ w) := by
    have h := leBytes_drop w (8 - w) old
    rwa [show w + (8 - w) = 8 by omega] at h
  simp only [aliasStore, objectValue, objectBytes]
  rw [leValue_append, hd, leValue_leBytes, leValue_leBytes, leBytes_length]

theorem decode_string_little (m : Mem) (input size : Nat) :
    decode_string .little m input size
      = (input + 2,
         beValue (readBytes m input 2) + 2 ^ 16 * (size / 2 ^ 16 % 2 ^ 48),
         input + 2 + (beValue (readBytes m input 2) + 2 ^ 16 * (size / 2 ^ 16 % 2 ^ 48))) := by
  have h1 := beValue_lt (readBytes m input 2)
  rw [readBytes_length] at h1
  simp only [decode_string, decode_short_eq, aliasStore_little 2 _ _ (by omega)]
  rw [Nat.mod_eq_of_lt h1]
  norm_num

theorem decode_long_string_little (m : Mem) (input size : Nat) :
    decode_long_string .little m input size
      = (input + 4,
         beValue (readBytes m input 4) + 2 ^ 32 * (size / 2 ^ 32 % 2 ^ 32),
         input + 4 + (beValue (readBytes m input 4) + 2 ^ 32 * (size / 2 ^ 32 % 2 ^ 32))) := by
  have h1 := beValue_lt (readBytes m input 4)
  rw [readBytes_length] at h1
  simp only [decode_long_string, decode_int_eq, toU32_toI32, aliasStore_little 4 _ _ (by omega)]
  rw [Nat.mod_eq_of_lt (by omega : beValue (readBytes m input 4) < 2 ^ 32),
    Nat.mod_eq_of_lt h1]
  norm_num

/-- Reading back a length prefix written in network order. -/
theorem beValue_read_field (m : Mem) (p w v : Nat) (rest : List Byte) (hv : v < 256 ^ w) :
    beValue (readBytes (memcpy m p (beBytes w v ++ rest)) p w) = v := by
  have h := readBytes_memcpy m p (beBytes w v ++ rest)
  rw [readBytes_append_iff, beBytes_length] at h
  rw [h.1, beValue_beBytes, Nat.mod_eq_of_lt hv]

theorem readBytes_read_payload (m : Mem) (p w v : Nat) (rest : List Byte) :
    readBytes (memcpy m p (beBytes w v ++ rest)) (p + w) rest.length = rest := by
  have h := readBytes_memcpy m p (beBytes w v ++ rest)
  rw [readBytes_append_iff, beBytes_length] at h
  exact h.2

/-- Short-string round trip on a little-endian host. -/
theorem string_roundtrip_little (m : Mem) (start : Nat) (s : List Byte) (hs : s.length ≤ 65535) :
    decode_string .little (encode_string .little m start s).1 start 0
        = (start + 2, s.length, (encode_string .little m start s).2)
      ∧ readBytes (encode_string .little m start s).1 (start + 2) s.length = s
      ∧ (encode_string .little m start s).2 = start + 2 + s.length := by
  rw [encode_string_eq, decode_string_little]
  simp only
  rw [beValue_read_field m start 2 s.length s (by omega), readBytes_read_payload]
  simp

/-- Long-string round trip on a little-endian host. -/
theorem long_string_roundtrip_little (m : Mem) (start : Nat) (s : List Byte)
    (hs : s.length ≤ 2 ^ 31 - 1) :
    decode_long_string .little (encode_long_string .little m start s).1 start 0
        = (start + 4, s.length, (encode_long_string .little m start s).2)
      ∧ readBytes (encode_long_string .little m start s).1 (start + 4) s.length = s
      ∧ (encode_long_string .little m start s).2 = start + 4 + s.length := by
  rw [encode_long_string_eq, decode_long_string_little]
  simp only
  rw [beValue_read_field m start 4 s.length s (by omega), readBytes_read_payload]
  simp

theorem wireString_length (s : List Byte) : (wireString s).length = 2 + s.length := by
  simp [wireString, beBytes_length]

theorem encode_string_eq_wire (h : Endian) (m : Mem) (output : Nat) (input : List Byte) :
    encode_string h m output input
      = (memcpy m output (wireString input), output + (wireString input).length) := by
  rw [encode_string_eq, wireString_length, Nat.add_assoc]
  rfl

theorem encode_pairs_foldl (m : Mem) (output : Nat) (l : List (List Byte × List Byte))
    (pre : List Byte) :
    l.foldl
        (fun (st : Mem × Nat) (it : List Byte × List Byte) =>
          (memcpy st.1 st.2 (wireString it.1 ++ wireString it.2),
            st.2 + (wireString it.1 ++ wireString it.2).length))
        (memcpy m output pre, output + pre.length)
      = (memcpy m output (pre ++ wirePairs l), output + (pre ++ wirePairs l).length) := by
  induction l generalizing pre with
  | nil => simp [wirePairs]
  | cons p rest ih =>
    simp only [List.foldl_cons, memcpy_append, Nat.add_assoc, ← List.length_append]
    rw [ih]
    simp only [wirePairs, List.append_assoc]

theorem encode_string_map_eq (h : Endian) (m : Mem) (output : Nat) (map : StringMap) :
    encode_string_map h m output map
      = (memcpy m output (wireMap map), output + (wireMap map).length) := by
  have hstep : (fun (st : Mem × Nat) (it : List Byte × List Byte) =>
        let st1 := encode_string h st.1 st.2 it.1
        encode_string h st1.1 st1.2 it.2)
      = fun st it => (memcpy st.1 st.2 (wireString it.1 ++ wireString it.2),
          st.2 + (wireString it.1 ++ wireString it.2).length) := by
    funext st it
    simp only [encode_string_eq_wire, memcpy_append, Nat.add_assoc, ← List.length_append]
  simp only [encode_string_map, encode_short_eq, hstep]
  have h2 : output + 2 = output + (beBytes 2 map.length).length := by rw [beBytes_length]
  rw [h2, encode_pairs_foldl]
  rfl

/-- One short string read back on a little-endian host from memory that holds
its wire layout. -/
theorem decode_string_wire (m : Mem) (p : Nat) (s : List Byte) (hs : s.length ≤ 65535)
    (hm : readBytes m p (wireString s).length = wireString s) :
    decode_string .little m p 0 = (p + 2, s.length, p + (wireString s).length)
      ∧ readBytes m (p + 2) s.length = s := by
  unfold wireString at hm
  rw [readBytes_append_iff, beBytes_length] at hm
  rw [decode_string_little, hm.1, beValue_beBytes, Nat.mod_eq_of_lt (by omega), wireString_length]
  refine ⟨?_, hm.2⟩
  simp [Nat.add_assoc]

theorem decode_loop_wire (m : Mem) (l : List (List Byte × List Byte))
    (hl : ∀ p ∈ l, p.1.length ≤ 65535 ∧ p.2.length ≤ 65535) (b : Nat) (acc : StringMap)
    (hm : readBytes m b (wirePairs l).length = wirePairs l) :
    decode_string_map_loop .little m l.length b acc
      = (insertAll acc l, b + (wirePairs l).length) := by
  induction l generalizing b acc with
  | nil => simp [decode_string_map_loop, insertAll, wirePairs]
  | cons p rest ih =>
    have hp := hl p (List.mem_cons_self _ _)
    simp only [wirePairs, List.append_assoc] at hm
    rw [readBytes_append_iff] at hm
    obtain ⟨hk, hm⟩ := hm
    rw [readBytes_append_iff] at hm
    obtain ⟨hv, hr⟩ := hm
    obtain ⟨dk, bk⟩ := decode_string_wire m b p.1 hp.1 hk
    obtain ⟨dv, bv⟩ := decode_string_wire m _ p.2 hp.2 hv
    simp only [List.length_cons, decode_string_map_loop, dk, dv, bk, bv]
    rw [ih (fun q hq => hl q (List.mem_cons_of_mem _ hq)) _ _ hr]
    simp [insertAll, wirePairs, Nat.add_assoc]

theorem decode_string_map_wire (m : Mem) (input : Nat) (l : List (List Byte × List Byte))
    (prior : StringMap) (hn : l.length ≤ 65535)
    (hl : ∀ p ∈ l, p.1.length ≤ 65535 ∧ p.2.length ≤ 65535)
    (hm : readBytes m input (wireMap l).length = wireMap l) :
    decode_string_map .little m input prior
      = (insertAll [] l, input + (wireMap l).length) := by
  unfold wireMap at hm
  rw [readBytes_append_iff, beBytes_length] at hm
  simp only [decode_string_map, decode_short_eq]
  rw [hm.1, beValue_beBytes, Nat.mod_eq_of_lt (by omega), decode_loop_wire m l hl _ _ hm.2]
  simp [wireMap, beBytes_length, Nat.add_assoc]

/-! ## The ordered map -/

theorem map_insert_append (k v : List Byte) (acc : StringMap) (hk : ∀ q ∈ acc, q.1 < k) :
    map_insert k v acc = acc ++ [(k, v)] := by
  induction acc with
  | nil => rfl
  | cons q rest ih =>
    obtain ⟨k1, v1⟩ := q
    have h1 : k1 < k := hk (k1, v1) (List.mem_cons_self _ _)
    have h2 : ¬ k < k1 := lt_asymm h1
    have h3 : ¬ k = k1 := fun e => lt_irrefl k1 (e ▸ h1)
    simp only [map_insert, h2, h3, if_false, List.cons_append]
    rw [ih (fun q hq => hk q (List.mem_cons_of_mem _ hq))]

theorem insertAll_sorted (acc l : StringMap) (hs : (acc ++ l).Pairwise keyLt) :
    insertAll acc l = acc ++ l := by
  induction l generalizing acc with
  | nil => simp [insertAll]
  | cons p rest ih =>
    have hp : ∀ q ∈ acc, q.1 < p.1 := by
      intro q hq
      rw [List.pairwise_append] at hs
      exact hs.2.2 q hq p (List.mem_cons_self _ _)
    have h1 : insertAll acc (p :: rest) = insertAll (map_insert p.1 p.2 acc) rest := rfl
    rw [h1, map_insert_append _ _ _ hp, ih]
    · simp
    · simpa using hs

theorem mem_map_insert (k v : List Byte) (acc : StringMap) (q : List Byte × List Byte)
    (hq : q ∈ map_insert k v acc) : q = (k, v) ∨ q ∈ acc := by
  induction acc with
  | nil => simpa [map_insert] using hq
  | cons r rest ih =>
    obtain ⟨k1, v1⟩ := r
    simp only [map_insert] at hq
    split at hq
    · simpa using hq
    · split at hq
      · exact Or.inr hq
      · rcases List.mem_cons.mp hq with h | h
        · exact Or.inr (h ▸ List.mem_cons_self _ _)
        · rcases ih h with h | h
          · exact Or.inl h
          · exact Or.inr (List.mem_cons_of_mem _ h)

theorem map_insert_pairwise (k v : List Byte) (acc : StringMap) (hs : acc.Pairwise keyLt) :
    (map_insert k v acc).Pairwise keyLt := by
  induction acc with
  | nil => simp [map_insert]
  | cons r rest ih =>
    obtain ⟨k1, v1⟩ := r
    rw [List.pairwise_cons] at hs
    simp only [map_insert]
    split
    · rename_i hlt
      refine List.Pairwise.cons ?_ (List.Pairwise.cons hs.1 hs.2)
      intro q hq
      rcases List.mem_cons.mp hq with h | h
      · subst h; exact hlt
      · exact lt_trans hlt (hs.1 q h)
    · split
      · exact List.Pairwise.cons hs.1 hs.2
      · rename_i hnlt hne
        refine List.Pairwise.cons ?_ (ih hs.2)
        intro q hq
        rcases mem_map_insert k v rest q hq with h | h
        · subst h
          rcases lt_trichotomy k k1 with h1 | h1 | h1
          · exact absurd h1 hnlt
          · exact absurd h1 hne
          · exact h1
        · exact hs.1 q h

theorem map_insert_perm (k v : List Byte) (acc : StringMap) (hk : k ∉ acc.map Prod.fst) :
    (map_insert k v acc).Perm ((k, v) :: acc) := by
  induction acc with
  | nil => simp [map_insert]
  | cons r rest ih =>
    obtain ⟨k1, v1⟩ := r
    simp only [List.map_cons, List.mem_cons, not_or] at hk
    simp only [map_insert]
    split
    · exact List.Perm.refl _
    · rw [if_neg hk.1]
      exact ((ih hk.2).cons (k1, v1)).trans (List.Perm.swap _ _ _)

theorem insertAll_pairwise (acc l : StringMap) (hs : acc.Pairwise keyLt) :
    (insertAll acc l).Pairwise keyLt := by
  induction l generalizing acc with
  | nil => simpa [insertAll] using hs
  | cons p rest ih => exact ih _ (map_insert_pairwise p.1 p.2 acc hs)

theorem insertAll_perm (acc l : StringMap) (hk : (acc.map Prod.fst ++ l.map Prod.fst).Nodup) :
    (insertAll acc l).Perm (acc ++ l) := by
  induction l generalizing acc with
  | nil => simp [insertAll]
  | cons p rest ih =>
    have hp : p.1 ∉ acc.map Prod.fst := by
      intro hmem
      rw [List.nodup_append] at hk
      exact hk.2.2 hmem (by simp)
    have h1 := map_insert_perm p.1 p.2 acc hp
    have h2 : ((map_insert p.1 p.2 acc).map Prod.fst ++ rest.map Prod.fst).Nodup := by
      have h3 : ((map_insert p.1 p.2 acc).map Prod.fst ++ rest.map Prod.fst).Perm
          (acc.map Prod.fst ++ (p :: rest).map Prod.fst) := by
        refine ((h1.map Prod.fst).append_right _).trans ?_
        simp only [List.map_cons, List.cons_append]
        exact List.perm_middle.symm
      exact h3.nodup_iff.mpr hk
    have h4 : insertAll acc (p :: rest) = insertAll (map_insert p.1 p.2 acc) rest := rfl
    rw [h4]
    refine (ih _ h2).trans ?_
    refine (h1.append_right _).trans ?_
    simp only [List.cons_append]
    exact List.perm_middle.symm

theorem pairwise_keyLt_perm_eq (a b : StringMap) (hp : a.Perm b) (ha : a.Pairwise keyLt)
    (hb : b.Pairwise keyLt) : a = b := by
  haveI : IsAntisymm (List Byte × List Byte) keyLt :=
    ⟨fun x y h1 h2 => absurd h2 (lt_asymm h1)⟩
  exact List.eq_of_perm_of_sorted hp ha hb

theorem beBytes_four (v : Int) :
    beBytes 4 (toU32 v) = [byteAt v 3, byteAt v 2, byteAt v 1, byteAt v 0] := by
  simp only [beBytes, leBytes, List.reverse_cons, List.reverse_nil, List.nil_append,
    List.cons_append, byteAt, toU32]
  simp only [List.cons.injEq, Fin.mk.injEq, and_true]
  refine ⟨?_, ?_, ?_, ?_⟩ <;> omega

theorem beBytes_eight (v : Int) :
    beBytes 8 (toU64 v) = [byteAt v 7, byteAt v 6, byteAt v 5, byteAt v 4,
      byteAt v 3, byteAt v 2, byteAt v 1, byteAt v 0] := by
  simp only [beBytes, leBytes, List.reverse_cons, List.reverse_nil, List.nil_append,
    List.cons_append, byteAt, toU64]
  simp only [List.cons.injEq, Fin.mk.injEq, and_true]
  refine ⟨?_, ?_, ?_, ?_, ?_, ?_, ?_, ?_⟩ <;> omega

theorem subset_map_insert (k v : List Byte) (acc : StringMap) (q : List Byte × List Byte)
    (hq : q ∈ acc) : q ∈ map_insert k v acc := by
  induction acc with
  | nil => cases hq
  | cons r rest ih =>
    obtain ⟨k1, v1⟩ := r
    simp only [map_insert]
    split
    · exact List.mem_cons_of_mem _ hq
    · split
      · exact hq
      · rcases List.mem_cons.mp hq with h | h
        · exact h ▸ List.mem_cons_self _ _
        · exact List.mem_cons_of_mem _ (ih h)

/-! ## Round trips and order independence on a little-endian host -/

/-- String-map round trip on a little-endian host, for a map with at most
65535 entries whose keys and values are at most 65535 bytes long. -/
theorem string_map_roundtrip_little (m : Mem) (start : Nat) (map prior : StringMap)
    (hs : map.Pairwise keyLt) (hn : map.length ≤ 65535)
    (hl : ∀ p ∈ map, p.1.length ≤ 65535 ∧ p.2.length ≤ 65535) :
    decode_string_map .little (encode_string_map .little m start map).1 start prior
      = (map, (encode_string_map .little m start map).2) := by
  rw [encode_string_map_eq]
  rw [decode_string_map_wire _ start map prior hn hl (readBytes_memcpy m start (wireMap map))]
  rw [insertAll_sorted [] map (by simpa using hs)]
  simp

/-- On a little-endian host, two payloads carrying the same pairs with pairwise
distinct keys in different orders decode to the same map, which has one entry
per pair. -/
theorem string_map_order_independent_little (m1 m2 : Mem) (in1 in2 : Nat)
    (l1 l2 : List (List Byte × List Byte)) (prior1 prior2 : StringMap)
    (hp : l1.Perm l2) (hk : (l1.map Prod.fst).Nodup) (hn : l1.length ≤ 65535)
    (hl : ∀ p ∈ l1, p.1.length ≤ 65535 ∧ p.2.length ≤ 65535)
    (hm1 : readBytes m1 in1 (wireMap l1).length = wireMap l1)
    (hm2 : readBytes m2 in2 (wireMap l2).length = wireMap l2) :
    (decode_string_map .little m1 in1 prior1).1 = (decode_string_map .little m2 in2 prior2).1
      ∧ (decode_string_map .little m1 in1 prior1).1.length = l1.length := by
  have hn2 : l2.length ≤ 65535 := hp.length_eq ▸ hn
  have hl2 : ∀ p ∈ l2, p.1.length ≤ 65535 ∧ p.2.length ≤ 65535 :=
    fun p hp2 => hl p (hp.mem_iff.mpr hp2)
  have hk2 : (l2.map Prod.fst).Nodup := (hp.map Prod.fst).nodup_iff.mp hk
  rw [decode_string_map_wire m1 in1 l1 prior1 hn hl hm1,
    decode_string_map_wire m2 in2 l2 prior2 hn2 hl2 hm2]
  have p1 : (insertAll [] l1).Perm l1 := by simpa using insertAll_perm [] l1 (by simpa using hk)
  have p2 : (insertAll [] l2).Perm l2 := by simpa using insertAll_perm [] l2 (by simpa using hk2)
  refine ⟨?_, p1.length_eq⟩
  exact pairwise_keyLt_perm_eq _ _ (p1.trans (hp.trans p2.symm))
    (insertAll_pairwise [] l1 List.Pairwise.nil) (insertAll_pairwise [] l2 List.Pairwise.nil)

/-! ## Settled properties of the codec -/

/-- C1, on a big-endian host: `encode_string` writes the one-byte string `A` as
00 01 41 and returns offset 3, but `decode_string`, started with `size = 0`,
stores the length through `(uint16_t&) size` into the two high-order bytes of
`size`, leaving `size = 2^48` and returning offset `2 + 2^48`. -/
theorem decode_string_big_endian_size :
    readBytes (encode_string .big zeroMem 0 [65]).1 0 3 = [0, 1, 65]
      ∧ (encode_string .big zeroMem 0 [65]).2 = 3
      ∧ decode_string .big (encode_string .big zeroMem 0 [65]).1 0 0
          = (2, 2 ^ 48, 2 + 2 ^ 48) := by
  decide

/-- C2, on a big-endian host: `encode_string_map` writes the map `a -> 1` in 8
bytes and returns offset 8, but `decode_string_map` takes the key to be `2^48`
bytes long and returns offset `2^48 + 6`. -/
theorem decode_string_map_big_endian_position :
    readBytes (encode_string_map .big zeroMem 0 [([97], [49])]).1 0 8
        = [0, 1, 0, 1, 97, 0, 1, 49]
      ∧ (encode_string_map .big zeroMem 0 [([97], [49])]).2 = 8
      ∧ (decode_string_map .big (encode_string_map .big zeroMem 0 [([97], [49])]).1 0 []).2
          = 2 ^ 48 + 6 := by
  decide

/-- C3: for every 32-bit signed integer `v`, on either host, `decode_int` applied
to the bytes written by `encode_int` outputs `v` and returns the position 4
bytes past its input, which is the position `encode_int` returned. -/
theorem decode_int_encode_int (h : Endian) (m : Mem) (start : Nat) (v : Int)
    (h1 : -2 ^ 31 ≤ v) (h2 : v < 2 ^ 31) :
    decode_int h (encode_int h m start v).1 start = (v, start + 4)
      ∧ (encode_int h m start v).2 = start + 4 := by
  rw [encode_int_eq, decode_int_eq]
  have hr := readBytes_memcpy m start (beBytes 4 (toU32 v))
  rw [beBytes_length] at hr
  have hu := toU32_lt v
  simp only [hr, beValue_beBytes]
  rw [Nat.mod_eq_of_lt (by omega), toI32_toU32 v h1 h2]
  simp

/-- Instance of the int32 round trip at `INT32_MIN` on a little-endian host. -/
theorem decode_int_encode_int_witness :
    decode_int .little (encode_int .little zeroMem 16 (-2147483648)).1 16 = (-2147483648, 16 + 4)
      ∧ (encode_int .little zeroMem 16 (-2147483648)).2 = 16 + 4 :=
  decode_int_encode_int .little zeroMem 16 (-2147483648) (by norm_num) (by norm_num)

/-- C4: for every 32-bit signed integer `v`, on a little-endian and on a
big-endian host alike, `encode_int` writes exactly the 4 bytes
`(v>>24)&0xFF, (v>>16)&0xFF, (v>>8)&0xFF, v&0xFF` at `output`, leaves every
other byte of memory unchanged, and returns `output + 4`. -/
theorem encode_int_layout (h : Endian) (m : Mem) (output : Nat) (v : Int)
    (_h1 : -2 ^ 31 ≤ v) (_h2 : v < 2 ^ 31) :
    readBytes (encode_int h m output v).1 output 4
        = [byteAt v 3, byteAt v 2, byteAt v 1, byteAt v 0]
      ∧ (∀ a, a < output ∨ output + 4 ≤ a → (encode_int h m output v).1 a = m a)
      ∧ (encode_int h m output v).2 = output + 4
      ∧ encode_int .little m output v = encode_int .big m output v := by
  rw [encode_int_eq, encode_int_eq, encode_int_eq]
  have hr := readBytes_memcpy m output (beBytes 4 (toU32 v))
  rw [beBytes_length] at hr
  refine ⟨by rw [hr, beBytes_four], ?_, rfl, rfl⟩
  intro a ha
  exact memcpy_outside m output _ a (by rw [beBytes_length]; exact ha)

/-- Instance of the int32 layout: 42 is written as 00 00 00 2A on a big-endian
host. -/
theorem encode_int_layout_witness :
    readBytes (encode_int .big zeroMem 8 42).1 8 4 = [0, 0, 0, 42]
      ∧ (encode_int .big zeroMem 8 42).2 = 8 + 4 :=
  ⟨(encode_int_layout .big zeroMem 8 42 (by norm_num) (by norm_num)).1,
    (encode_int_layout .big zeroMem 8 42 (by norm_num) (by norm_num)).2.2.1⟩

/-- C5: for every 64-bit signed integer `v`, `encode_int64` writes exactly 8
bytes, the most significant byte of the two's-complement representation first,
leaves every other byte of memory unchanged and returns `output + 8`; a
little-endian host (where `htonll` is the 64-bit byte swap) and a big-endian
host (where it is the identity) write the same bytes. -/
theorem encode_int64_layout (h : Endian) (m : Mem) (output : Nat) (v : Int)
    (_h1 : -2 ^ 63 ≤ v) (_h2 : v < 2 ^ 63) :
    readBytes (encode_int64 h m output v).1 output 8
        = [byteAt v 7, byteAt v 6, byteAt v 5, byteAt v 4,
           byteAt v 3, byteAt v 2, byteAt v 1, byteAt v 0]
      ∧ (∀ a, a < output ∨ output + 8 ≤ a → (encode_int64 h m output v).1 a = m a)
      ∧ (encode_int64 h m output v).2 = output + 8
      ∧ encode_int64 .little m output v = encode_int64 .big m output v := by
  rw [encode_int64_eq, encode_int64_eq, encode_int64_eq]
  have hr := readBytes_memcpy m output (beBytes 8 (toU64 v))
  rw [beBytes_length] at hr
  refine ⟨by rw [hr, beBytes_eight], ?_, rfl, rfl⟩
  intro a ha
  exact memcpy_outside m output _ a (by rw [beBytes_length]; exact ha)

/-- Instance of the int64 layout: `2^40 + 1` on a little-endian host. -/
theorem encode_int64_layout_witness :
    readBytes (encode_int64 .little zeroMem 0 1099511627777).1 0 8 = [0, 0, 1, 0, 0, 0, 0, 1]
      ∧ (encode_int64 .little zeroMem 0 1099511627777).2 = 0 + 8 :=
  ⟨(encode_int64_layout .little zeroMem 0 1099511627777 (by norm_num) (by norm_num)).1,
    (encode_int64_layout .little zeroMem 0 1099511627777 (by norm_num) (by norm_num)).2.2.1⟩

/-- C6, on a big-endian host: on the payload `count=2, a -> 1, b -> 2` the map
that `decode_string_map` produces is not `a:1, b:2`: the first key is read with
a size of `2^48` bytes, and for either order of the pairs the returned offset is
`2^48 + 10`, far past the 14-byte payload. -/
theorem decode_string_map_big_endian_keys :
    (decode_string_map .big
        (memcpy zeroMem 0 [0, 2, 0, 1, 97, 0, 1, 49, 0, 1, 98, 0, 1, 50]) 0 []).1
      ≠ [([97], [49]), ([98], [50])]
    ∧ (decode_string_map .big
        (memcpy zeroMem 0 [0, 2, 0, 1, 97, 0, 1, 49, 0, 1, 98, 0, 1, 50]) 0 []).2
      = 2 ^ 48 + 10
    ∧ (decode_string_map .big
        (memcpy zeroMem 0 [0, 2, 0, 1, 98, 0, 1, 50, 0, 1, 97, 0, 1, 49]) 0 []).2
      = 2 ^ 48 + 10 := by
  refine ⟨?_, by decide, by decide⟩
  generalize hm : memcpy zeroMem 0 [0, 2, 0, 1, 97, 0, 1, 49, 0, 1, 98, 0, 1, 50] = m
  have hs : decode_short .big m 0 = (2, 2) := by subst hm; decide
  have hk : decode_string .big m 2 0 = (4, 2 ^ 48, 4 + 2 ^ 48) := by subst hm; decide
  intro heq
  have hmem : (readBytes m 4 (2 ^ 48), readBytes m (decode_string .big m (4 + 2 ^ 48) 0).1
      (decode_string .big m (4 + 2 ^ 48) 0).2.1)
      ∈ (decode_string_map .big m 0 []).1 := by
    simp only [decode_string_map, hs, decode_string_map_loop, hk]
    apply subset_map_insert
    simp [map_insert]
  have hlen : (readBytes m 4 (2 ^ 48)).length = 2 ^ 48 := readBytes_length m 4 (2 ^ 48)
  rw [heq] at hmem
  generalize readBytes m 4 (2 ^ 48) = K at hmem hlen
  generalize readBytes m _ _ = V at hmem
  simp only [List.mem_cons, Prod.mk.injEq, List.mem_singleton, List.not_mem_nil, or_false] at hmem
  rcases hmem with ⟨h1, _⟩ | ⟨h1, _⟩ <;> · subst h1; simp at hlen

/-- C8, on a big-endian host: `encode_long_string` writes the one-byte string
`A` as 00 00 00 01 41 and returns offset 5, but `decode_long_string`, started
with `size = 0`, stores the length through `(int32_t&) size` into the four
high-order bytes of `size`, leaving `size = 2^32` and returning offset
`4 + 2^32`. -/
theorem decode_long_string_big_endian_size :
    readBytes (encode_long_string .big zeroMem 0 [65]).1 0 5 = [0, 0, 0, 1, 65]
      ∧ (encode_long_string .big zeroMem 0 [65]).2 = 5
      ∧ decode_long_string .big (encode_long_string .big zeroMem 0 [65]).1 0 0
          = (4, 2 ^ 32, 4 + 2 ^ 32) := by
  decide

end cass

/-! ## Settled properties of the row and iterator accessors -/

/-- C9: `cass_row_getcol` returns `CASS_ERROR_LIB_BAD_PARAMS` and leaves `*value`
as it was when `index` is at least the number of columns of the row, and
returns `CASS_OK` with `*value` designating the element at position `index`
when `index` is below it. -/
theorem cass_row_getcol_bounds {α : Type} (row : Row α) (index : Nat) (value : Option α) :
    (row.length ≤ index →
        cass_row_getcol row index value = (CassCode.CASS_ERROR_LIB_BAD_PARAMS, value))
      ∧ (∀ hi : index < row.length,
        cass_row_getcol row index value = (CassCode.CASS_OK, some (row.get ⟨index, hi⟩))) := by
  constructor
  · intro hge
    simp [cass_row_getcol, hge]
  · intro hi
    simp [cass_row_getcol, hi]

/-- Instance of the column access: a row of three columns read at index 3 and
at index 1. -/
theorem cass_row_getcol_bounds_witness :
    cass_row_getcol [10, 20, 30] 3 (some 7) = (CassCode.CASS_ERROR_LIB_BAD_PARAMS, some 7)
      ∧ cass_row_getcol [10, 20, 30] 1 (some 7) = (CassCode.CASS_OK, some 20) :=
  ⟨(cass_row_getcol_bounds [10, 20, 30] 3 (some 7)).1 (by decide),
    (cass_row_getcol_bounds [10, 20, 30] 1 (some 7)).2 (by decide)⟩

/-- C10 fails as stated: on a result iterator over one row, before any call to
`cass_iterator_next` and again after `cass_iterator_next` has returned false,
`cass_iterator_get_row` returns `CASS_OK` and hands out the row member. -/
theorem cass_iterator_get_row_unchecked :
    cass_iterator_get_row (cass_iterator_rows_new [[1, 2]] []) none
        = (CassCode.CASS_OK, some [])
      ∧ (cass_iterator_next (cass_iterator_next (cass_iterator_rows_new [[1, 2]] [])).2).1 = false
      ∧ cass_iterator_get_row
          (cass_iterator_next (cass_iterator_next (cass_iterator_rows_new [[1, 2]] [])).2).2 none
        = (CassCode.CASS_OK, some [1, 2]) := by
  decide

/-- C10 as amended: `cass_iterator_get_row` fails, with
`CASS_ERROR_LIB_BAD_PARAMS` and `*row` left as it was, exactly when the iterator
is not a result iterator; on a result iterator it returns `CASS_OK` and hands
out the row member whatever calls to `cass_iterator_next` came before. -/
theorem cass_iterator_get_row_status {ρ : Type} (iterator : Iterator ρ) (row : Option ρ) :
    (iterator.type = IteratorType.CASS_ITERATOR_TYPE_RESULT →
        cass_iterator_get_row iterator row = (CassCode.CASS_OK, some iterator.row))
      ∧ (iterator.type ≠ IteratorType.CASS_ITERATOR_TYPE_RESULT →
        cass_iterator_get_row iterator row = (CassCode.CASS_ERROR_LIB_BAD_PARAMS, row)) := by
  constructor
  · intro h
    simp [cass_iterator_get_row, h]
  · intro h
    simp [cass_iterator_get_row, h]

/-- Instance of the status of `cass_iterator_get_row` on a fresh result iterator
and on an iterator of another kind. -/
theorem cass_iterator_get_row_status_witness :
    cass_iterator_get_row (cass_iterator_rows_new [[1, 2]] []) none
        = (CassCode.CASS_OK, some [])
      ∧ cass_iterator_get_row
          (⟨IteratorType.CASS_ITERATOR_TYPE_OTHER, [], []⟩ : Iterator (List Nat)) (some [5])
        = (CassCode.CASS_ERROR_LIB_BAD_PARAMS, some [5]) :=
  ⟨(cass_iterator_get_row_status (cass_iterator_rows_new [[1, 2]] []) none).1 rfl,
    (cass_iterator_get_row_status
      (⟨IteratorType.CASS_ITERATOR_TYPE_OTHER, [], []⟩ : Iterator (List Nat)) (some [5])).2
      (by decide)⟩

namespace cass

/-! ## Duplicate keys -/

theorem firstValue_eq_none (k : List Byte) (acc : StringMap) (hk : ∀ q ∈ acc, q.1 ≠ k) :
    firstValue k acc = none := by
  induction acc with
  | nil => rfl
  | cons q rest ih =>
    simp only [firstValue, hk q (List.mem_cons_self _ _), if_false]
    exact ih (fun r hr => hk r (List.mem_cons_of_mem _ hr))

theorem firstValue_map_insert (k k1 v : List Byte) (acc : StringMap)
    (hs : acc.Pairwise keyLt) :
    firstValue k (map_insert k1 v acc)
      = (firstValue k acc).or (if k1 = k then some v else none) := by
  induction acc with
  | nil => simp [map_insert, firstValue]
  | cons q rest ih =>
    obtain ⟨k2, v2⟩ := q
    rw [List.pairwise_cons] at hs
    simp only [map_insert]
    split
    · rename_i hlt
      by_cases hk : k1 = k
      · have hnone : firstValue k ((k2, v2) :: rest) = none := by
          apply firstValue_eq_none
          intro r hr
          rcases List.mem_cons.mp hr with h | h
          · subst h; subst hk
            exact fun e => lt_irrefl _ (e ▸ hlt)
          · subst hk
            exact fun e => lt_irrefl _ (e ▸ lt_trans hlt (hs.1 r h))
        rw [hnone]
        simp [firstValue, hk]
      · simp only [firstValue, hk, if_false, Option.or_none]
    · split
      · rename_i hnlt heq
        subst heq
        by_cases hk : k1 = k
        · simp [firstValue, hk]
        · simp only [hk, if_false, Option.or_none]
      · by_cases hk : k2 = k
        · simp [firstValue, hk]
        · simp only [firstValue, hk, if_false]
          exact ih hs.2

theorem firstValue_insertAll (k : List Byte) (acc l : StringMap) (hs : acc.Pairwise keyLt) :
    firstValue k (insertAll acc l) = (firstValue k acc).or (firstValue k l) := by
  induction l generalizing acc with
  | nil => simp [insertAll, firstValue, Option.or_none]
  | cons p rest ih =>
    have h1 : insertAll acc (p :: rest) = insertAll (map_insert p.1 p.2 acc) rest := rfl
    rw [h1, ih _ (map_insert_pairwise p.1 p.2 acc hs), firstValue_map_insert k p.1 p.2 acc hs,
      Option.or_assoc]
    congr 1
    by_cases hk : p.1 = k <;> simp [firstValue, hk]

theorem keys_insertAll_subset (acc l : StringMap) :
    ∀ q ∈ insertAll acc l, q ∈ acc ∨ q ∈ l := by
  induction l generalizing acc with
  | nil =>
    intro q hq
    exact Or.inl hq
  | cons p rest ih =>
    intro q hq
    have h1 : insertAll acc (p :: rest) = insertAll (map_insert p.1 p.2 acc) rest := rfl
    rw [h1] at hq
    rcases ih _ q hq with h | h
    · rcases mem_map_insert p.1 p.2 acc q h with h2 | h2
      · exact Or.inr (h2 ▸ List.mem_cons_self _ _)
      · exact Or.inl h2
    · exact Or.inr (List.mem_cons_of_mem _ h)

theorem insertAll_length_lt (l : StringMap) (hd : ¬ (l.map Prod.fst).Nodup) :
    (insertAll [] l).length < l.length := by
  have hs : (insertAll [] l).Pairwise keyLt := insertAll_pairwise [] l List.Pairwise.nil
  have hnd : ((insertAll [] l).map Prod.fst).Nodup := by
    rw [List.Nodup, List.pairwise_map]
    exact hs.imp (fun h => ne_of_lt h)
  have hsub : (insertAll [] l).map Prod.fst ⊆ l.map Prod.fst := by
    intro k hk
    obtain ⟨q, hq, rfl⟩ := List.mem_map.mp hk
    rcases keys_insertAll_subset [] l q hq with h | h
    · cases h
    · exact List.mem_map_of_mem _ h
  have hsp := hnd.subperm hsub
  have hle := hsp.length_le
  simp only [List.length_map] at hle
  rcases Nat.lt_or_ge (insertAll [] l).length l.length with h | h
  · exact h
  · exfalso
    have hp := hsp.perm_of_length_le (by simpa using h)
    exact hd (hp.nodup_iff.mp hnd)

/-- On a little-endian host, a payload of `n` pairs decodes to a map that gives
every key the value of its first occurrence on the wire, has strictly ascending
keys (one entry per distinct key), has fewer than `n` entries when some key
occurs more than once, and does not depend on the prior content of the output
map; the returned position is the one after all `n` pairs. -/
theorem string_map_duplicates_little (m : Mem) (input : Nat)
    (l : List (List Byte × List Byte)) (prior : StringMap) (hn : l.length ≤ 65535)
    (hl : ∀ p ∈ l, p.1.length ≤ 65535 ∧ p.2.length ≤ 65535)
    (hm : readBytes m input (wireMap l).length = wireMap l) :
    (∀ k, firstValue k (decode_string_map .little m input prior).1 = firstValue k l)
      ∧ (decode_string_map .little m input prior).1.Pairwise keyLt
      ∧ (¬ (l.map Prod.fst).Nodup → (decode_string_map .little m input prior).1.length < l.length)
      ∧ (decode_string_map .little m input prior).2 = input + (wireMap l).length
      ∧ decode_string_map .little m input prior = decode_string_map .little m input [] := by
  rw [decode_string_map_wire m input l prior hn hl hm, decode_string_map_wire m input l [] hn hl hm]
  refine ⟨?_, insertAll_pairwise [] l List.Pairwise.nil, insertAll_length_lt l, rfl, rfl⟩
  intro k
  rw [firstValue_insertAll k [] l List.Pairwise.nil]
  simp [firstValue]

end cass

namespace cass

/-! ## Settled properties of the codec, continued -/

theorem encode_decimal_eq (h : Endian) (m : Mem) (output : Nat) (scale : Int)
    (varint : List Byte) :
    encode_decimal h m output scale varint
      = (memcpy m output (beBytes 4 (toU32 scale) ++ varint), output + 4 + varint.length) := by
  simp only [encode_decimal, encode_int_eq]
  have h2 : output + 4 = output + (beBytes 4 (toU32 scale)).length := by rw [beBytes_length]
  rw [h2, memcpy_append]

/-- C15: with size 0 `encode_string` writes exactly the two bytes 00 00 and
returns `output + 2`, `encode_long_string` writes exactly the four bytes
00 00 00 00 and returns `output + 4`, and `encode_string_map` of the empty map
writes exactly the two bytes 00 00 and returns `output + 2`; on either host. -/
theorem encode_zero_length (h : Endian) (m : Mem) (output : Nat) :
    (readBytes (encode_string h m output []).1 output 2 = [0, 0]
        ∧ (∀ a, a < output ∨ output + 2 ≤ a → (encode_string h m output []).1 a = m a)
        ∧ (encode_string h m output []).2 = output + 2)
      ∧ (readBytes (encode_long_string h m output []).1 output 4 = [0, 0, 0, 0]
        ∧ (∀ a, a < output ∨ output + 4 ≤ a → (encode_long_string h m output []).1 a = m a)
        ∧ (encode_long_string h m output []).2 = output + 4)
      ∧ (readBytes (encode_string_map h m output []).1 output 2 = [0, 0]
        ∧ (∀ a, a < output ∨ output + 2 ≤ a → (encode_string_map h m output []).1 a = m a)
        ∧ (encode_string_map h m output []).2 = output + 2) := by
  have e1 : encode_string h m output [] = (memcpy m output [0, 0], output + 2) := by
    rw [encode_string_eq]; rfl
  have e2 : encode_long_string h m output [] = (memcpy m output [0, 0, 0, 0], output + 4) := by
    rw [encode_long_string_eq]; rfl
  have e3 : encode_string_map h m output [] = (memcpy m output [0, 0], output + 2) := by
    rw [encode_string_map_eq]; rfl
  rw [e1, e2, e3]
  refine ⟨⟨readBytes_memcpy m output [0, 0], ?_, rfl⟩,
    ⟨readBytes_memcpy m output [0, 0, 0, 0], ?_, rfl⟩,
    ⟨readBytes_memcpy m output [0, 0], ?_, rfl⟩⟩
  · intro a ha
    exact memcpy_outside m output _ a ha
  · intro a ha
    exact memcpy_outside m output _ a ha
  · intro a ha
    exact memcpy_outside m output _ a ha

/-- C16: for every int32 `scale` and every magnitude of `L` bytes, on either
host, `encode_decimal` writes the 4 network-order bytes of `scale` followed by
the `L` magnitude bytes unchanged and in order, with no length in between,
leaves every other byte of memory unchanged and returns `output + 4 + L`. -/
theorem encode_decimal_layout (h : Endian) (m : Mem) (output : Nat) (scale : Int)
    (varint : List Byte) (_h1 : -2 ^ 31 ≤ scale) (_h2 : scale < 2 ^ 31) :
    readBytes (encode_decimal h m output scale varint).1 output (4 + varint.length)
        = [byteAt scale 3, byteAt scale 2, byteAt scale 1, byteAt scale 0] ++ varint
      ∧ (∀ a, a < output ∨ output + 4 + varint.length ≤ a →
          (encode_decimal h m output scale varint).1 a = m a)
      ∧ (encode_decimal h m output scale varint).2 = output + 4 + varint.length := by
  rw [encode_decimal_eq, beBytes_four]
  refine ⟨?_, ?_, rfl⟩
  · have hr := readBytes_memcpy m output
      ([byteAt scale 3, byteAt scale 2, byteAt scale 1, byteAt scale 0] ++ varint)
    have hlen : ([byteAt scale 3, byteAt scale 2, byteAt scale 1, byteAt scale 0]
        ++ varint).length = 4 + varint.length := by
      simp only [List.length_append, List.length_cons, List.length_nil]
    rw [hlen] at hr
    exact hr
  · intro a ha
    refine memcpy_outside m output _ a ?_
    have hlen : ([byteAt scale 3, byteAt scale 2, byteAt scale 1, byteAt scale 0]
        ++ varint).length = 4 + varint.length := by
      simp only [List.length_append, List.length_cons, List.length_nil]
    rw [hlen]
    omega

/-- Instance of the decimal layout: scale 2, magnitude 01 23, on a little-endian
host. -/
theorem encode_decimal_layout_witness :
    readBytes (encode_decimal .little zeroMem 0 2 [1, 35]).1 0 (4 + 2) = [0, 0, 0, 2, 1, 35]
      ∧ (encode_decimal .little zeroMem 0 2 [1, 35]).2 = 0 + 4 + 2 :=
  ⟨(encode_decimal_layout .little zeroMem 0 2 [1, 35] (by norm_num) (by norm_num)).1,
    (encode_decimal_layout .little zeroMem 0 2 [1, 35] (by norm_num) (by norm_num)).2.2⟩

/-- C19, on a little-endian host, buffer 00 01 41, `size` holding `2^16` before
the call: `decode_string` leaves `size = 2^16 + 1` and returns offset
`2 + 2^16 + 1`; with `size` holding 0 before the call it leaves `size = 1` and
returns offset 3. -/
theorem decode_string_keeps_high_bytes :
    decode_string .little (memcpy zeroMem 0 [0, 1, 65]) 0 (2 ^ 16)
        = (2, 2 ^ 16 + 1, 2 + (2 ^ 16 + 1))
      ∧ decode_string .little (memcpy zeroMem 0 [0, 1, 65]) 0 0 = (2, 1, 3) := by
  decide

/-- C20, on a big-endian host: on the payload `count=2, a -> 1, a -> 2` the
returned offset is `2^48 + 10`, far past the 14-byte payload, and the decoded
map is not the one-entry map `a:1`. -/
theorem decode_string_map_big_endian_duplicates :
    (decode_string_map .big
        (memcpy zeroMem 0 [0, 2, 0, 1, 97, 0, 1, 49, 0, 1, 97, 0, 1, 50]) 0 []).2
      = 2 ^ 48 + 10
    ∧ (decode_string_map .big
        (memcpy zeroMem 0 [0, 2, 0, 1, 97, 0, 1, 49, 0, 1, 97, 0, 1, 50]) 0 []).1
      ≠ [([97], [49])] := by
  refine ⟨by decide, ?_⟩
  generalize hm : memcpy zeroMem 0 [0, 2, 0, 1, 97, 0, 1, 49, 0, 1, 97, 0, 1, 50] = m
  have hs : decode_short .big m 0 = (2, 2) := by subst hm; decide
  have hk : decode_string .big m 2 0 = (4, 2 ^ 48, 4 + 2 ^ 48) := by subst hm; decide
  intro heq
  have hmem : (readBytes m 4 (2 ^ 48), readBytes m (decode_string .big m (4 + 2 ^ 48) 0).1
      (decode_string .big m (4 + 2 ^ 48) 0).2.1)
      ∈ (decode_string_map .big m 0 []).1 := by
    simp only [decode_string_map, hs, decode_string_map_loop, hk]
    apply subset_map_insert
    simp [map_insert]
  have hlen : (readBytes m 4 (2 ^ 48)).length = 2 ^ 48 := readBytes_length m 4 (2 ^ 48)
  rw [heq] at hmem
  generalize readBytes m 4 (2 ^ 48) = K at hmem hlen
  generalize readBytes m _ _ = V at hmem
  simp only [List.mem_singleton, Prod.mk.injEq] at hmem
  obtain ⟨h1, _⟩ := hmem
  subst h1
  simp at hlen

end cass

/-! ## Settled properties of the futures, statements, collections and results -/

/-- C11: for a future whose error is set, `cass_future_get_session`,
`cass_future_get_result` and `cass_future_get_prepared` each return null, leave
the future as it was and construct no payload object. -/
theorem cass_future_get_null_on_error {σ : Type} (sf : SessionFuture σ) (mf : MessageFuture)
    (hs : sf.error.isSome = true) (hm : mf.error.isSome = true) :
    cass_future_get_session sf = (none, sf)
      ∧ cass_future_get_result mf = (none, mf)
      ∧ cass_future_get_prepared mf = (none, mf) := by
  simp [cass_future_get_session, cass_future_get_result, cass_future_get_prepared, hs, hm]

/-- Instance of the null payload: futures that failed with error code 7 while
still holding a session and a body. -/
theorem cass_future_get_null_on_error_witness :
    cass_future_get_session (⟨some ⟨7, []⟩, some 3⟩ : SessionFuture Nat)
        = (none, ⟨some ⟨7, []⟩, some 3⟩)
      ∧ cass_future_get_result ⟨some ⟨7, []⟩, some ⟨1, 2, 3, fun _ => 0, [1]⟩⟩
        = (none, ⟨some ⟨7, []⟩, some ⟨1, 2, 3, fun _ => 0, [1]⟩⟩)
      ∧ cass_future_get_prepared ⟨some ⟨7, []⟩, some ⟨1, 2, 3, fun _ => 0, [1]⟩⟩
        = (none, ⟨some ⟨7, []⟩, some ⟨1, 2, 3, fun _ => 0, [1]⟩⟩) :=
  cass_future_get_null_on_error (⟨some ⟨7, []⟩, some 3⟩ : SessionFuture Nat)
    ⟨some ⟨7, []⟩, some ⟨1, 2, 3, fun _ => 0, [1]⟩⟩ rfl rfl

/-- C12 fails as stated: on a future in the success state holding a rows result,
the first `cass_future_get_result` returns that result and leaves the stored
body null, and the second call returns null. -/
theorem cass_future_get_result_releases :
    (cass_future_get_result ⟨none, some ⟨1, 2, 3, fun _ => 0, []⟩⟩).1.isSome = true
      ∧ (cass_future_get_result ⟨none, some ⟨1, 2, 3, fun _ => 0, []⟩⟩).2.body.isNone = true
      ∧ (cass_future_get_result
          (cass_future_get_result ⟨none, some ⟨1, 2, 3, fun _ => 0, []⟩⟩).2).1.isNone = true := by
  decide

/-- C12 as amended: on a future in the success state (no error, payload
present) `cass_future_get_result` returns the stored result and releases it
from the future, whose error stays unset and whose stored body becomes null;
a second call on the same future returns null and changes nothing more. -/
theorem cass_future_get_result_once (future : MessageFuture) (r : Result)
    (he : future.error = none) (hb : future.body = some r) :
    (cass_future_get_result future).1 = some r
      ∧ (cass_future_get_result future).2 = ⟨none, none⟩
      ∧ cass_future_get_result (cass_future_get_result future).2 = (none, ⟨none, none⟩) := by
  simp [cass_future_get_result, he, hb]

/-- Instance of the single hand-out on a future holding a rows result. -/
theorem cass_future_get_result_once_witness :
    (cass_future_get_result ⟨none, some ⟨1, 2, 3, fun _ => 0, []⟩⟩).1
        = some ⟨1, 2, 3, fun _ => 0, []⟩
      ∧ (cass_future_get_result ⟨none, some ⟨1, 2, 3, fun _ => 0, []⟩⟩).2 = ⟨none, none⟩
      ∧ cass_future_get_result (cass_future_get_result ⟨none, some ⟨1, 2, 3, fun _ => 0, []⟩⟩).2
        = (none, ⟨none, none⟩) :=
  cass_future_get_result_once ⟨none, some ⟨1, 2, 3, fun _ => 0, []⟩⟩ ⟨1, 2, 3, fun _ => 0, []⟩
    rfl rfl

/-- C13, at index 5 of a statement with 2 parameter slots:
`cass_statement_bind_decimal` returns `CASS_OK`; the slots stay as they were. -/
theorem cass_statement_bind_decimal_returns_ok :
    cass_statement_bind_decimal ⟨[some [1], none]⟩ 5 2 [1, 35]
      = (CassCode.CASS_OK, ⟨[some [1], none]⟩) := by
  decide

/-- C14, at the 64-bit values `2^32` and `2^40 + 1`: the values that
`cass_collection_append_int64` passes to `append_int64` are 0 and 1. -/
theorem cass_collection_append_int64_truncates :
    cass_collection_append_int64 (fun (c : List Int) v => c ++ [v]) [] (2 ^ 32)
        = (CassCode.CASS_OK, [0])
      ∧ cass_collection_append_int64 (fun (c : List Int) v => c ++ [v]) [] (2 ^ 40 + 1)
        = (CassCode.CASS_OK, [1]) := by
  decide

/-- C17, at index 2 of a rows result with 2 columns: `cass_result_coltype`
returns `CASS_OK` and writes to `*coltype` what lies past the column metadata. -/
theorem cass_result_coltype_unchecked :
    cass_result_coltype ⟨CASS_RESULT_KIND_ROWS, 1, 2, fun i => if i < 2 then 9 else 77, []⟩ 2
        (some 13)
      = (CassCode.CASS_OK, some 77) := by
  decide

/-- C18: `cass_result_rowcount` and `cass_result_colcount` return the stored
`row_count` and `column_count` of a result of kind `CASS_RESULT_KIND_ROWS`, and
both return 0 for every other kind, whatever the stored counts. -/
theorem cass_result_counts (result : Result) :
    (result.kind = CASS_RESULT_KIND_ROWS →
        cass_result_rowcount result = result.row_count
          ∧ cass_result_colcount result = result.column_count)
      ∧ (result.kind ≠ CASS_RESULT_KIND_ROWS →
        cass_result_rowcount result = 0 ∧ cass_result_colcount result = 0) := by
  constructor
  · intro h
    simp [cass_result_rowcount, cass_result_colcount, h]
  · intro h
    simp [cass_result_rowcount, cass_result_colcount, h]

/-- Instance of the counts: a rows result with 4 rows and 3 columns, and a
result of kind 2 storing the same counts. -/
theorem cass_result_counts_witness :
    (cass_result_rowcount ⟨CASS_RESULT_KIND_ROWS, 4, 3, fun _ => 0, []⟩ = 4
        ∧ cass_result_colcount ⟨CASS_RESULT_KIND_ROWS, 4, 3, fun _ => 0, []⟩ = 3)
      ∧ (cass_result_rowcount ⟨2, 4, 3, fun _ => 0, []⟩ = 0
        ∧ cass_result_colcount ⟨2, 4, 3, fun _ => 0, []⟩ = 0) :=
  ⟨(cass_result_counts ⟨CASS_RESULT_KIND_ROWS, 4, 3, fun _ => 0, []⟩).1 rfl,
    (cass_result_counts ⟨2, 4, 3, fun _ => 0, []⟩).2 (by decide)⟩

/-- For a result whose kind is not rows, `cass_result_coltype` returns
`CASS_ERROR_LIB_BAD_PARAMS` and leaves `*coltype` as it was; for a rows result it
returns `CASS_OK` at every index. -/
theorem cass_result_coltype_status (result : Result) (index : Nat) (coltype : Option Nat) :
    (result.kind ≠ CASS_RESULT_KIND_ROWS →
        cass_result_coltype result index coltype = (CassCode.CASS_ERROR_LIB_BAD_PARAMS, coltype))
      ∧ (result.kind = CASS_RESULT_KIND_ROWS →
        (cass_result_coltype result index coltype).1 = CassCode.CASS_OK) := by
  constructor
  · intro h
    simp [cass_result_coltype, h]
  · intro h
    simp [cass_result_coltype, h]

/-- The value `cass_collection_append_int64` passes on is the caller's value
when that value fits in 32 bits. -/
theorem cass_collection_append_int64_small {κ : Type} (append_int64 : κ → Int → κ)
    (collection : κ) (x : Int) (h1 : -2 ^ 31 ≤ x) (h2 : x < 2 ^ 31) :
    cass_collection_append_int64 append_int64 collection x
      = (CassCode.CASS_OK, append_int64 collection x) := by
  have hx : cass.toI32 (cass.toU64 x) = x := by
    unfold cass.toI32 cass.toU64
    split <;> omega
  simp [cass_collection_append_int64, hx]

namespace cass

/-! ## The option decoder -/

/-- When the type code is not the custom one, `decode_option` outputs the
network-order type code, returns `input + 2` and leaves `class_name` and
`class_name_size` as they were, on either host. -/
theorem decode_option_other (h : Endian) (m : Mem) (custom input class_name class_name_size : Nat)
    (ht : beValue (readBytes m input 2) ≠ custom) :
    decode_option h m custom input class_name class_name_size
      = (beValue (readBytes m input 2), class_name, class_name_size, input + 2) := by
  simp only [decode_option, decode_short_eq, if_neg ht]

/-- When the type code is the custom one, on a little-endian host
`decode_option` decodes one short string: `class_name` is `input + 4`, and the
length `L` replaces the two low-order bytes of `class_name_size`; the returned
position is `input + 4 + L` when `class_name_size` was below `2^16` before. -/
theorem decode_option_custom_little (m : Mem) (custom input class_name class_name_size : Nat)
    (ht : beValue (readBytes m input 2) = custom) :
    decode_option .little m custom input class_name class_name_size
        = (custom, input + 4,
            beValue (readBytes m (input + 2) 2) + 2 ^ 16 * (class_name_size / 2 ^ 16 % 2 ^ 48),
            input + 4 + (beValue (readBytes m (input + 2) 2)
              + 2 ^ 16 * (class_name_size / 2 ^ 16 % 2 ^ 48)))
      ∧ (class_name_size < 2 ^ 16 →
          decode_option .little m custom input class_name class_name_size
            = (custom, input + 4, beValue (readBytes m (input + 2) 2),
                input + 4 + beValue (readBytes m (input + 2) 2))) := by
  have e : decode_option .little m custom input class_name class_name_size
        = (custom, input + 4,
            beValue (readBytes m (input + 2) 2) + 2 ^ 16 * (class_name_size / 2 ^ 16 % 2 ^ 48),
            input + 4 + (beValue (readBytes m (input + 2) 2)
              + 2 ^ 16 * (class_name_size / 2 ^ 16 % 2 ^ 48))) := by
    simp only [decode_option, decode_short_eq, ht, if_true, decode_string_little]
  refine ⟨e, ?_⟩
  intro hlt
  rw [e, Nat.div_eq_of_lt hlt]
  simp

/-- C21, on a little-endian host, custom type code 0, buffer 00 00 00 01 41 and
`class_name_size` holding `2^16` before the call: `decode_option` leaves
`class_name_size = 2^16 + 1` and returns offset `4 + 2^16 + 1`; with a buffer
whose type code is 13, it returns offset 2 and leaves `class_name` and
`class_name_size` as they were. -/
theorem decode_option_keeps_high_bytes :
    decode_option .little (memcpy zeroMem 0 [0, 0, 0, 1, 65]) 0 0 0 (2 ^ 16)
        = (0, 4, 2 ^ 16 + 1, 4 + (2 ^ 16 + 1))
      ∧ decode_option .little (memcpy zeroMem 0 [0, 13, 0, 1, 65]) 0 0 7 (2 ^ 16)
        = (13, 7, 2 ^ 16, 2) := by
  decide

end cass

namespace test.Utils

open cass

/-! ## replace_all -/

theorem find_empty (s : List Byte) (pos : Nat) (hp : pos ≤ s.length) :
    find s [] pos = some pos := by
  simp [find, hp, find_from]

theorem replace_length (s str : List Byte) (pos len : Nat) (hp : pos + len ≤ s.length) :
    (replace s pos len str).length = s.length + str.length - len := by
  simp only [replace, List.length_append, List.length_take, List.length_drop]
  omega

theorem find_from_some (s str : List Byte) (n xpos p : Nat)
    (hf : find_from s str n xpos = some p) : xpos ≤ p ∧ p < xpos + n := by
  induction n generalizing xpos with
  | zero => simp [find_from] at hf
  | succ n ih =>
    simp only [find_from] at hf
    split at hf
    · simp only [Option.some.injEq] at hf
      omega
    · have h := ih (xpos + 1) hf
      omega

theorem find_some (s str : List Byte) (pos p : Nat) (hf : find s str pos = some p) :
    pos ≤ p ∧ p + str.length ≤ s.length := by
  unfold find at hf
  split at hf
  · have h := find_from_some s str _ pos p hf
    omega
  · cases hf

/-- With a non-empty `from`, the loop of `replace_all` ends: `n + 1` evaluations
of its condition are enough when at most `n` characters lie after `position`. -/
theorem replace_all_loop_ends (from_ to_ : List Byte) (hne : from_ ≠ []) (n : Nat) :
    ∀ (position : Nat) (result : List Byte), result.length - position ≤ n →
      ∃ r, replace_all_loop from_ to_ (n + 1) position result = some r := by
  have hlen : 0 < from_.length := List.length_pos.mpr hne
  induction n with
  | zero =>
    intro position result hm
    simp only [replace_all_loop]
    cases hf : find result from_ position with
    | none => exact ⟨result, rfl⟩
    | some found =>
      have h := find_some result from_ position found hf
      omega
  | succ n ih =>
    intro position result hm
    rw [replace_all_loop]
    cases hf : find result from_ position with
    | none => exact ⟨result, rfl⟩
    | some found =>
      have h := find_some result from_ position found hf
      apply ih
      rw [replace_length result to_ found from_.length h.2]
      omega

/-- With a non-empty `from`, `replace_all` returns: `input.length + 1`
evaluations of the loop condition are enough. -/
theorem replace_all_returns (input from_ to_ : List Byte) (hne : from_ ≠ []) :
    ∃ r, replace_all (input.length + 1) input from_ to_ = some r :=
  replace_all_loop_ends from_ to_ hne input.length 0 input (by omega)

theorem replace_all_loop_empty (to_ : List Byte) (fuel : Nat) :
    ∀ (position : Nat) (result : List Byte), position ≤ result.length →
      replace_all_loop [] to_ fuel position result = none := by
  induction fuel with
  | zero =>
    intro position result _
    rfl
  | succ fuel ih =>
    intro position result hp
    rw [replace_all_loop, find_empty result position hp]
    apply ih
    have hl := replace_length result to_ position 0 (by simpa using hp)
    simp only [List.length_nil]
    omega

/-- C22, with an empty `from`: for every input and every `to`, the loop of
`replace_all` is still running after any number of evaluations of its
condition, so the function does not return. -/
theorem replace_all_empty_from_runs_on (fuel : Nat) (input to_ : List Byte) :
    replace_all fuel input [] to_ = none :=
  replace_all_loop_empty to_ fuel 0 input (Nat.zero_le _)

end test.Utils
